import Mathlib

/-
Verification of libevmasm/Inliner.cpp: the EVM assembly inliner pass that
replaces a PushTag-JUMP call site by a copy of the code block jumped to.

The data model and the pass itself are translated from src/libevmasm/Inliner.cpp.
External collaborators (GasMeter, SemanticInformation, AssemblyItem encoding
sizes) live outside the given source tree and are abstracted into an Env
structure of opaque-in-the-mathematical-sense function parameters, modelled
from the spec where the spec constrains them.

Machine integer widths of the source are kept explicit:
codeSize accumulates into an unsigned int accumulator (mod 2 ^ 32 per step),
byte-count arithmetic in shouldInlineFullFunctionBody is uint64 (mod 2 ^ 64),
execution-cost arithmetic is u256 (mod 2 ^ 256), and the final comparison is
carried out in bigint, i.e. exactly.
-/

namespace EvmAsmInliner

/-- Jump classification carried by jump operations, as in AssemblyItem.h;
Ordinary is the default classification. -/
inductive JumpType where
  | Ordinary
  | IntoFunction
  | OutOfFunction
deriving DecidableEq

/-- Machine operations: the inliner only distinguishes the unconditional JUMP
opcode; every other opcode is carried abstractly by its code byte. -/
inductive Instr where
  | JUMP
  | OtherInstr (code : Nat)
deriving DecidableEq

/-- Assembly items as inspected by Inliner.cpp: operations (carrying their
mutable jump classification), PushTag, Tag, and a stand-in for all other item
kinds. Tag data is modelled as Nat (u256 in the source, used as an opaque key). -/
inductive AssemblyItem where
  | Operation (i : Instr) (jt : JumpType)
  | PushTag (tag : Nat)
  | Tag (tag : Nat)
  | OtherItem (k : Nat)
deriving DecidableEq

/-- Item kinds, mirroring AssemblyItemType as far as the inliner inspects it. -/
inductive AssemblyItemType where
  | OperationT
  | PushTagT
  | TagT
  | OtherT
deriving DecidableEq

def AssemblyItem.type : AssemblyItem → AssemblyItemType
  | .Operation _ _ => .OperationT
  | .PushTag _ => .PushTagT
  | .Tag _ => .TagT
  | .OtherItem _ => .OtherT

def instrCode : Instr → Nat
  | .JUMP => 0x56
  | .OtherInstr c => c

/-- The data() field of an assembly item; for operations it encodes the opcode. -/
def AssemblyItem.data : AssemblyItem → Nat
  | .Operation i _ => instrCode i
  | .PushTag t => t
  | .Tag t => t
  | .OtherItem k => k

/-- AssemblyItem::getJumpType; only meaningful on jump operations. -/
def AssemblyItem.getJumpType : AssemblyItem → JumpType
  | .Operation _ jt => jt
  | _ => .Ordinary

/-- The source comparison item == Instruction::JUMP: operator== compares item
type and data, ignoring the jump classification. -/
def isJumpOp : AssemblyItem → Bool
  | .Operation .JUMP _ => true
  | _ => false

/-- The source comparison item == AssemblyItem(PushTag, tag): type and data
equality. -/
def isPushTagOf (tag : Nat) : AssemblyItem → Bool
  | .PushTag t => decide (t = tag)
  | _ => false

/-- AssemblyItem::setJumpType, as applied by the rewriter to a copied item. -/
def setJumpTypeItem (jt : JumpType) : AssemblyItem → AssemblyItem
  | .Operation i _ => .Operation i jt
  | it => it

/-- newItems.back().setJumpType(jt): change the jump classification of the
last item of a list (the rewriter only applies this right after appending a
nonempty block, so acting on the appended block itself is faithful). -/
def setLastJumpType (jt : JumpType) : List AssemblyItem → List AssemblyItem
  | [] => []
  | [x] => [setJumpTypeItem jt x]
  | x :: y :: rest => x :: setLastJumpType jt (y :: rest)

/-- Number of occurrences of PushTag(tag) in a list of items, i.e. of items
with type PushTag and data tag. -/
def countPushTag : List AssemblyItem → Nat → Nat
  | [], _ => 0
  | it :: rest, tag => (if isPushTagOf tag it then 1 else 0) + countPushTag rest tag

/-- Modelled from the spec: the accumulated GasConsumption of the external
GasMeter over an item range, a value plus an isInfinite flag (spec section 4.2). -/
structure GasConsumption where
  value : Nat
  isInfinite : Bool

/-- Modelled from the spec: the external collaborators the pass consumes
(spec section 6): the straight-line terminator classifier
SemanticInformation::breaksCSEAnalysisBlock(item, false), the gas estimator,
the per-item encoded byte size AssemblyItem::bytesRequired(2), and the
deposit-cost function GasMeter::dataGas with the creation flag and EVM version
already applied. -/
structure Env where
  breaksCSE : AssemblyItem → Bool
  gasEstimate : List AssemblyItem → GasConsumption
  bytesRequired : AssemblyItem → Nat
  dataGas : Nat → Nat

/-- Configuration of one run: m_runs, the expected number of executions over
the lifetime of the contract. -/
structure Config where
  runs : Nat
deriving DecidableEq

/-- Error class of assertThrow(..., OptimizerException, ...) plus the
out-of-contract access that back() on an empty vector would be. -/
inductive InlinerError where
  | optimizerException
  | emptyBlockAccess
deriving DecidableEq

/-- Inliner.cpp executionCost: accumulate GasMeter::estimateMax over the range;
an infinite estimation saturates to the u256 maximum, a finite bigint value is
converted to the u256 return type, truncating mod 2 ^ 256. -/
def executionCost (env : Env) (items : List AssemblyItem) : Nat :=
  let g := env.gasEstimate items
  if g.isInfinite then 2 ^ 256 - 1 else g.value % 2 ^ 256

/-- Inliner.cpp codeSize: accumulate bytesRequired(2) with an unsigned int
initial accumulator, so every intermediate sum is truncated mod 2 ^ 32. -/
def codeSize (env : Env) (items : List AssemblyItem) : Nat :=
  items.foldl (fun acc it => (acc + env.bytesRequired it) % 2 ^ 32) 0

/-- The block and reference-count record stored per tag. The reference count
is uint64_t in the source; it is modelled as Int so that (non-)negativity is
expressible, with conversion to Nat at the one place the count feeds the
uint64 cost arithmetic. -/
structure InlinableBlock where
  items : List AssemblyItem
  pushTagCount : Int
deriving DecidableEq

/-- Inliner::isInlineCandidate: asserts the block nonempty, requires the block
to end in a JUMP operation, and rejects blocks containing a push of their own
tag. -/
def isInlineCandidate (tag : Nat) (items : List AssemblyItem) :
    Except InlinerError Bool :=
  if items.isEmpty then Except.error InlinerError.optimizerException
  else if !isJumpOp (items.getLastD (AssemblyItem.OtherItem 0)) then Except.ok false
  else if items.any (fun it => isPushTagOf tag it) then Except.ok false
  else Except.ok true

/-- Association-list map over Nat keys, standing in for std::map with u256
keys; only lookup and pointwise insertion or update are needed. -/
def mapLookup {α : Type} : List (Nat × α) → Nat → Option α
  | [], _ => none
  | (k, v) :: rest, t => if k = t then some v else mapLookup rest t

/-- Insert or overwrite the binding of a key. -/
def mapSet {α : Type} : List (Nat × α) → Nat → α → List (Nat × α)
  | [], k, v => [(k, v)]
  | (k1, v1) :: rest, k, v =>
      if k1 = k then (k, v) :: rest else (k1, v1) :: mapSet rest k v

/-- Update the binding of a key in place if present, otherwise do nothing
(the util::valueOrNullptr guarded update of the source). -/
def mapUpdate {α : Type} : List (Nat × α) → Nat → (α → α) → List (Nat × α)
  | [], _, _ => []
  | (k1, v1) :: rest, k, f =>
      if k1 = k then (k1, f v1) :: rest else (k1, v1) :: mapUpdate rest k f

abbrev BlockMap := List (Nat × InlinableBlock)

/-- The ++numPushTags[tag] of the source: operator[] default-inserts zero and
the increment follows. -/
def bumpCount (m : List (Nat × Nat)) (k : Nat) : List (Nat × Nat) :=
  mapSet m k (match mapLookup m k with
    | some n => n + 1
    | none => 1)

/-- Loop state of Inliner::determineInlinableBlocks: the open tag index, the
candidate blocks recorded so far, and the PushTag tallies. -/
structure ScanState where
  lastTag : Option Nat
  blockItems : List (Nat × List AssemblyItem)
  numPushTags : List (Nat × Nat)

/-- One iteration of the determineInlinableBlocks loop, in source order: tally
PushTag occurrences, close an open block at a straight-line terminator and
record it when it is an inline candidate, then open a new block at a Tag. -/
def scanStep (env : Env) (items : List AssemblyItem) (st : ScanState)
    (p : Nat × AssemblyItem) : ScanState :=
  let index := p.1
  let item := p.2
  let counts :=
    if item.type = AssemblyItemType.PushTagT then bumpCount st.numPushTags item.data
    else st.numPushTags
  let closed : Option Nat × List (Nat × List AssemblyItem) :=
    match st.lastTag with
    | some t =>
        if env.breaksCSE item then
          let block := (items.drop (t + 1)).take (index - t)
          let tag := (items.getD t (AssemblyItem.OtherItem 0)).data
          (none,
            match isInlineCandidate tag block with
            | Except.ok true => mapSet st.blockItems tag block
            | _ => st.blockItems)
        else (some t, st.blockItems)
    | none => (none, st.blockItems)
  let lastTag2 := if item.type = AssemblyItemType.TagT then some index else closed.1
  ⟨lastTag2, closed.2, counts⟩

/-- Inliner::determineInlinableBlocks: one enumerated scan building candidate
blocks and PushTag tallies, then a second pass keeping only candidates whose
tag was pushed at least once, attaching the tally as the reference count. -/
def determineInlinableBlocks (env : Env) (items : List AssemblyItem) : BlockMap :=
  let final := items.enum.foldl (scanStep env items) ⟨none, [], []⟩
  final.blockItems.foldl
    (fun r tb =>
      match mapLookup final.numPushTags tb.1 with
      | some n => mapSet r tb.1 ⟨tb.2, (n : Int)⟩
      | none => r)
    []

/-- The fixed call-site reference pattern PushTag, PushTag, JUMP, Tag of
shouldInlineFullFunctionBody (default-constructed tag data is zero). -/
def uninlinedCallSitePattern : List AssemblyItem :=
  [AssemblyItem.PushTag 0, AssemblyItem.PushTag 0,
   AssemblyItem.Operation Instr.JUMP JumpType.Ordinary, AssemblyItem.Tag 0]

/-- The fixed function entry-exit reference pattern Tag, JUMP of
shouldInlineFullFunctionBody. -/
def uninlinedFunctionPattern : List AssemblyItem :=
  [AssemblyItem.Tag 0, AssemblyItem.Operation Instr.JUMP JumpType.Ordinary]

/-- Inliner::shouldInlineFullFunctionBody. The body size excludes the return
jump; byte-count arithmetic is uint64 (mod 2 ^ 64; the source per-operation
truncations compose into one outer reduction), execution-cost arithmetic is
u256 (mod 2 ^ 256), and the final weighted comparison is exact bigint. -/
def shouldInlineFullFunctionBody (env : Env) (cfg : Config)
    (block : List AssemblyItem) (pushTagCount : Nat) : Bool :=
  let functionBodySize := codeSize env block.dropLast
  let numberOfCalls := pushTagCount
  let numberOfCallSites := pushTagCount
  let uninlinedExecutionCost :=
    (numberOfCalls *
      ((executionCost env uninlinedCallSitePattern +
        executionCost env uninlinedFunctionPattern) % 2 ^ 256)) % 2 ^ 256
  let uninlinedDepositCost :=
    env.dataGas ((numberOfCallSites * codeSize env uninlinedCallSitePattern +
      codeSize env uninlinedFunctionPattern + functionBodySize) % 2 ^ 64)
  let inlinedDepositCost :=
    env.dataGas ((numberOfCallSites * functionBodySize) % 2 ^ 64)
  decide (cfg.runs * uninlinedExecutionCost + uninlinedDepositCost > inlinedDepositCost)

/-- Inliner::shouldInline: back() on an empty block is an out-of-contract
access; the assertion requires both the call-site jump and the block
terminator to be JUMP operations; inlining requires the IntoFunction and
OutOfFunction classifications and a positive full-function-body decision, and
then yields the Ordinary classification for the copied exit jump. -/
def shouldInline (env : Env) (cfg : Config) (jump : AssemblyItem)
    (block : InlinableBlock) : Except InlinerError (Option JumpType) :=
  match block.items.getLast? with
  | none => Except.error InlinerError.emptyBlockAccess
  | some exitJump =>
    if !(isJumpOp jump && isJumpOp exitJump) then
      Except.error InlinerError.optimizerException
    else if jump.getJumpType = JumpType.IntoFunction ∧
        exitJump.getJumpType = JumpType.OutOfFunction then
      if shouldInlineFullFunctionBody env cfg block.items block.pushTagCount.toNat
      then Except.ok (some JumpType.Ordinary)
      else Except.ok none
    else Except.ok none

/-- The rewriter's per-position decision in Inliner::optimise: a PushTag item
immediately followed by a JUMP operation whose tag has a live candidate block
approved by shouldInline. A shouldInline error cannot arise for maps produced
by determineInlinableBlocks (their blocks all end in a JUMP); the source would
abort there. -/
def inlineDecision (env : Env) (cfg : Config) (blocks : BlockMap)
    (item nextItem : AssemblyItem) : Option (InlinableBlock × JumpType) :=
  if item.type = AssemblyItemType.PushTagT ∧ isJumpOp nextItem then
    match mapLookup blocks item.data with
    | some blk =>
      match shouldInline env cfg nextItem blk with
      | Except.ok (some jt) => some (blk, jt)
      | _ => none
    | none => none
  else none

/-- Reference-count bookkeeping of an inlining step: decrement the inlined
block's count (one call site consumed), then, for each PushTag inside the
copied body whose tag has a live candidate, increment that candidate's count. -/
def inlineMapUpdate (blocks : BlockMap) (tag : Nat) (blk : InlinableBlock) :
    BlockMap :=
  let m1 := mapUpdate blocks tag (fun b => ⟨b.items, b.pushTagCount - 1⟩)
  blk.items.foldl
    (fun m it =>
      if it.type = AssemblyItemType.PushTagT then
        mapUpdate m it.data (fun b => ⟨b.items, b.pushTagCount + 1⟩)
      else m)
    m1

/-- The rewrite loop of Inliner::optimise: one forward pass with one item of
lookahead, emitting either the current item, or (at an approved call site) a
copy of the candidate block with its exit jump reclassified, skipping the two
call-site items. Returns the rewritten items and the final block map. -/
def optimiseGo (env : Env) (cfg : Config) :
    BlockMap → List AssemblyItem → List AssemblyItem × BlockMap
  | blocks, [] => ([], blocks)
  | blocks, [item] => ([item], blocks)
  | blocks, item :: nextItem :: rest =>
    match inlineDecision env cfg blocks item nextItem with
    | some (blk, jt) =>
      let res := optimiseGo env cfg (inlineMapUpdate blocks item.data blk) rest
      (setLastJumpType jt blk.items ++ res.1, res.2)
    | none =>
      let res := optimiseGo env cfg blocks (nextItem :: rest)
      (item :: res.1, res.2)

/-- Inliner::optimise: determine the inlinable blocks, return the items
unchanged when there are none, otherwise run the rewrite pass. -/
def optimise (env : Env) (cfg : Config) (items : List AssemblyItem) :
    List AssemblyItem :=
  let inlinableBlocks := determineInlinableBlocks env items
  if inlinableBlocks = [] then items
  else (optimiseGo env cfg inlinableBlocks items).1

/-- The sequence of block maps the rewrite loop passes through, one entry per
loop step plus the state at loop exit; an observer of optimiseGo with the same
case structure. -/
def optimiseTrace (env : Env) (cfg : Config) :
    BlockMap → List AssemblyItem → List BlockMap
  | blocks, [] => [blocks]
  | blocks, [_] => [blocks]
  | blocks, item :: nextItem :: rest =>
    blocks ::
      (match inlineDecision env cfg blocks item nextItem with
      | some (blk, _) => optimiseTrace env cfg (inlineMapUpdate blocks item.data blk) rest
      | none => optimiseTrace env cfg blocks (nextItem :: rest))

/-- Modelled from the spec: exact code size (section 4.2), the untruncated sum
of per-item encoded byte sizes. -/
def codeSizeExact (env : Env) (items : List AssemblyItem) : Nat :=
  items.foldl (fun acc it => acc + env.bytesRequired it) 0

/-- Modelled from the spec: exact execution cost (section 4.2), saturating to
the fixed maximum sentinel when unbounded, otherwise the untruncated value. -/
def executionCostExact (env : Env) (items : List AssemblyItem) : Nat :=
  let g := env.gasEstimate items
  if g.isInfinite then 2 ^ 256 - 1 else g.value

/-- Modelled from the spec: the section 4.3 decision rule with all quantities
computed as exact (arbitrary-precision) integers. -/
def shouldInlineSpecExact (env : Env) (cfg : Config)
    (block : List AssemblyItem) (referenceCount : Nat) : Bool :=
  let bodySize := codeSizeExact env block.dropLast
  let uninlinedExecCost := referenceCount *
    (executionCostExact env uninlinedCallSitePattern +
     executionCostExact env uninlinedFunctionPattern)
  let uninlinedDeposit := env.dataGas
    (referenceCount * codeSizeExact env uninlinedCallSitePattern +
     codeSizeExact env uninlinedFunctionPattern + bodySize)
  let inlinedDeposit := env.dataGas (referenceCount * bodySize)
  decide (cfg.runs * uninlinedExecCost + uninlinedDeposit > inlinedDeposit)

/-!
Association-list map lemmas.
-/

theorem mapLookup_mem {α : Type} :
    ∀ (m : List (Nat × α)) (t : Nat) (v : α),
      mapLookup m t = some v → (t, v) ∈ m := by
  intro m
  induction m with
  | nil => intro t v h; exact absurd h (by simp [mapLookup])
  | cons kv rest ih =>
    intro t v h
    rcases kv with ⟨k1, v1⟩
    by_cases hk : k1 = t
    · subst hk
      simp [mapLookup] at h
      subst h
      exact List.mem_cons_self _ _
    · simp [mapLookup, hk] at h
      exact List.mem_cons_of_mem _ (ih t v h)

theorem mem_mapSet {α : Type} :
    ∀ (m : List (Nat × α)) (k : Nat) (v : α) (x : Nat × α),
      x ∈ mapSet m k v → x = (k, v) ∨ x ∈ m := by
  intro m
  induction m with
  | nil => intro k v x h; simp [mapSet] at h; exact Or.inl h
  | cons kv rest ih =>
    intro k v x h
    rcases kv with ⟨k1, v1⟩
    by_cases hk : k1 = k
    · simp [mapSet, hk] at h
      rcases h with h | h
      · exact Or.inl h
      · exact Or.inr (List.mem_cons_of_mem _ h)
    · simp [mapSet, hk] at h
      rcases h with h | h
      · exact Or.inr (by simp [h])
      · rcases ih k v x h with h1 | h1
        · exact Or.inl h1
        · exact Or.inr (List.mem_cons_of_mem _ h1)

theorem mapLookup_mapSet {α : Type} :
    ∀ (m : List (Nat × α)) (k t : Nat) (v : α),
      mapLookup (mapSet m k v) t =
        if k = t then some v else mapLookup m t := by
  intro m
  induction m with
  | nil => intro k t v; simp [mapSet, mapLookup]
  | cons kv rest ih =>
    intro k t v
    rcases kv with ⟨k1, v1⟩
    by_cases hk : k1 = k
    · subst hk
      by_cases ht : k1 = t <;> simp [mapSet, mapLookup, ht]
    · by_cases ht : k1 = t
      · subst ht
        simp only [mapSet, hk, if_false, mapLookup, if_pos rfl]
        exact (if_neg (fun hkk => hk hkk.symm)).symm
      · simp [mapSet, hk, mapLookup, ht, ih]

theorem mapLookup_mapUpdate {α : Type} :
    ∀ (m : List (Nat × α)) (k t : Nat) (f : α → α),
      mapLookup (mapUpdate m k f) t =
        if k = t then Option.map f (mapLookup m k) else mapLookup m t := by
  intro m
  induction m with
  | nil => intro k t f; simp [mapUpdate, mapLookup]
  | cons kv rest ih =>
    intro k t f
    rcases kv with ⟨k1, v1⟩
    by_cases hk : k1 = k
    · subst hk
      by_cases ht : k1 = t <;> simp [mapUpdate, mapLookup, ht]
    · by_cases ht : k1 = t
      · subst ht
        simp only [mapUpdate, hk, if_false, mapLookup, if_pos rfl]
        exact (if_neg (fun hkk => hk hkk.symm)).symm
      · simp [mapUpdate, hk, mapLookup, ht, ih]

theorem mapLookup_bumpCount (m : List (Nat × Nat)) (k t : Nat) :
    mapLookup (bumpCount m k) t =
      if k = t then some ((mapLookup m k).getD 0 + 1) else mapLookup m t := by
  unfold bumpCount
  rw [mapLookup_mapSet]
  cases h : mapLookup m k <;> simp [h]

/-!
Characterisation of the candidacy check.
-/

theorem isPushTagOf_iff (tag : Nat) (it : AssemblyItem) :
    isPushTagOf tag it = true ↔
      it.type = AssemblyItemType.PushTagT ∧ it.data = tag := by
  cases it <;> simp [isPushTagOf, AssemblyItem.type, AssemblyItem.data]

/-- Unpacking a positive candidacy check: the block is nonempty, ends in a
JUMP operation and contains no push of its own tag. -/
theorem isInlineCandidate_ok_true (tag : Nat) (l : List AssemblyItem)
    (h : isInlineCandidate tag l = Except.ok true) :
    l ≠ [] ∧ (∃ e, l.getLast? = some e ∧ isJumpOp e = true) ∧
      ∀ x ∈ l, isPushTagOf tag x = false := by
  unfold isInlineCandidate at h
  split at h
  · exact absurd h (by simp)
  next he =>
    have hne : l ≠ [] := by simpa [List.isEmpty_iff] using he
    split at h
    · exact absurd h (by simp)
    next hj =>
      have hj1 : isJumpOp (l.getLastD (AssemblyItem.OtherItem 0)) = true := by
        cases hq : isJumpOp (l.getLastD (AssemblyItem.OtherItem 0))
        · exact absurd (by rw [hq]; rfl) hj
        · rfl
      split at h
      · exact absurd h (by simp)
      next ha =>
        refine ⟨hne, ⟨l.getLastD (AssemblyItem.OtherItem 0), ?_, hj1⟩, ?_⟩
        · rw [List.getLastD_eq_getLast?]
          cases hq : l.getLast? with
          | none => exact absurd (List.getLast?_eq_none_iff.mp hq) hne
          | some e => rfl
        · intro x hx
          cases hq : isPushTagOf tag x
          · rfl
          · exact absurd (List.any_eq_true.mpr ⟨x, hx, hq⟩) ha

/-!
The determineInlinableBlocks scan.
-/

/-- The PushTag tallies of one scan step, read off the constructor. -/
theorem scanStep_numPushTags (env : Env) (items : List AssemblyItem)
    (st : ScanState) (p : Nat × AssemblyItem) :
    (scanStep env items st p).numPushTags =
      if p.2.type = AssemblyItemType.PushTagT then bumpCount st.numPushTags p.2.data
      else st.numPushTags := rfl

/-- The candidate blocks recorded by one scan step: either unchanged, or one
new recorded block that passed the candidacy check on a slice of the items. -/
theorem scanStep_blockItems (env : Env) (items : List AssemblyItem)
    (st : ScanState) (p : Nat × AssemblyItem) :
    (scanStep env items st p).blockItems = st.blockItems ∨
    ∃ t, (scanStep env items st p).blockItems =
        mapSet st.blockItems ((items.getD t (AssemblyItem.OtherItem 0)).data)
          ((items.drop (t + 1)).take (p.1 - t)) ∧
      isInlineCandidate ((items.getD t (AssemblyItem.OtherItem 0)).data)
        ((items.drop (t + 1)).take (p.1 - t)) = Except.ok true := by
  unfold scanStep
  cases hlt : st.lastTag with
  | none => exact Or.inl rfl
  | some t =>
    by_cases hb : env.breaksCSE p.2
    · simp only [hb, if_true]
      cases hcand : isInlineCandidate ((items.getD t (AssemblyItem.OtherItem 0)).data)
          ((items.drop (t + 1)).take (p.1 - t)) with
      | error e => exact Or.inl rfl
      | ok b =>
        cases b with
        | false => exact Or.inl rfl
        | true => exact Or.inr ⟨t, rfl, hcand⟩
    · simp only [hb, if_false]
      exact Or.inl rfl

/-- Entries of the recorded candidate map: blocks that passed the candidacy
check and whose items all occur in the scanned item list. -/
def goodEntry (items : List AssemblyItem) (e : Nat × List AssemblyItem) : Prop :=
  isInlineCandidate e.1 e.2 = Except.ok true ∧ ∀ x ∈ e.2, x ∈ items

theorem scan_blockItems_good (env : Env) (items : List AssemblyItem) :
    ∀ (l : List (Nat × AssemblyItem)) (st : ScanState),
      (∀ e ∈ st.blockItems, goodEntry items e) →
      ∀ e ∈ (l.foldl (scanStep env items) st).blockItems, goodEntry items e := by
  intro l
  induction l with
  | nil => intro st h e he; exact h e he
  | cons p rest ih =>
    intro st h e he
    refine ih (scanStep env items st p) ?_ e he
    intro e1 he1
    rcases scanStep_blockItems env items st p with hsame | ⟨t, heq, hcand⟩
    · exact h e1 (hsame ▸ he1)
    · rw [heq] at he1
      rcases mem_mapSet _ _ _ _ he1 with h1 | h1
      · subst h1
        refine ⟨hcand, ?_⟩
        intro x hx
        exact List.drop_subset _ _ (List.take_subset _ _ hx)
      · exact h e1 h1

/-- The PushTag tallies accumulated by the scan are a fold over the items
alone (the indices and the block bookkeeping do not feed them). -/
theorem scan_counts (env : Env) (items : List AssemblyItem) :
    ∀ (l : List (Nat × AssemblyItem)) (st : ScanState),
      (l.foldl (scanStep env items) st).numPushTags =
        l.foldl
          (fun c p =>
            if p.2.type = AssemblyItemType.PushTagT then bumpCount c p.2.data else c)
          st.numPushTags := by
  intro l
  induction l with
  | nil => intro st; rfl
  | cons p rest ih =>
    intro st
    simp only [List.foldl]
    rw [ih (scanStep env items st p), scanStep_numPushTags]

/-- The tally fold computes exactly the PushTag occurrence counts. -/
theorem counts_fold_lookup :
    ∀ (l : List (Nat × AssemblyItem)) (c0 : List (Nat × Nat)) (tag : Nat),
      mapLookup
          (l.foldl
            (fun c p =>
              if p.2.type = AssemblyItemType.PushTagT then bumpCount c p.2.data else c)
            c0) tag =
        if countPushTag (l.map Prod.snd) tag = 0 then mapLookup c0 tag
        else some ((mapLookup c0 tag).getD 0 + countPushTag (l.map Prod.snd) tag) := by
  intro l
  induction l with
  | nil => intro c0 tag; simp [countPushTag]
  | cons p rest ih =>
    intro c0 tag
    simp only [List.foldl, List.map_cons, countPushTag]
    by_cases hp : p.2.type = AssemblyItemType.PushTagT
    · by_cases hd : p.2.data = tag
      · have hpt : isPushTagOf tag p.2 = true := (isPushTagOf_iff tag p.2).mpr ⟨hp, hd⟩
        rw [if_pos hp, ih (bumpCount c0 p.2.data) tag, hpt]
        have hb : mapLookup (bumpCount c0 p.2.data) tag =
            some ((mapLookup c0 tag).getD 0 + 1) := by
          rw [mapLookup_bumpCount, if_pos hd, hd]
        rw [hb]
        simp only [if_true]
        by_cases hz : countPushTag (rest.map Prod.snd) tag = 0 <;>
          simp [hz, Nat.add_comm, Nat.add_assoc, Nat.add_left_comm]
      · have hpt : isPushTagOf tag p.2 = false := by
          cases hq : isPushTagOf tag p.2
          · rfl
          · exact absurd ((isPushTagOf_iff tag p.2).mp hq).2 hd
        rw [if_pos hp, ih (bumpCount c0 p.2.data) tag, hpt]
        have hb : mapLookup (bumpCount c0 p.2.data) tag = mapLookup c0 tag := by
          rw [mapLookup_bumpCount, if_neg hd]
        rw [hb]
        simp
    · have hpt : isPushTagOf tag p.2 = false := by
        cases hq : isPushTagOf tag p.2
        · rfl
        · exact absurd ((isPushTagOf_iff tag p.2).mp hq).1 hp
      rw [if_neg hp, ih c0 tag, hpt]
      simp

/-- Lookup in the PushTag tallies of the full scan. -/
theorem determine_counts_lookup (env : Env) (items : List AssemblyItem) (tag : Nat) :
    mapLookup ((items.enum.foldl (scanStep env items) ⟨none, [], []⟩).numPushTags) tag =
      if countPushTag items tag = 0 then none else some (countPushTag items tag) := by
  rw [scan_counts, counts_fold_lookup]
  simp [List.enum_map_snd, mapLookup]

/-- Unpacking a lookup in the final mapping: the block was recorded during the
scan and its reference count is the positive PushTag tally of its tag. -/
theorem determine_lookup (env : Env) (items : List AssemblyItem) (tag : Nat)
    (b : InlinableBlock)
    (h : mapLookup (determineInlinableBlocks env items) tag = some b) :
    (tag, b.items) ∈
        (items.enum.foldl (scanStep env items) ⟨none, [], []⟩).blockItems ∧
      ∃ n, mapLookup
          ((items.enum.foldl (scanStep env items) ⟨none, [], []⟩).numPushTags) tag =
          some n ∧ b.pushTagCount = (n : Int) := by
  unfold determineInlinableBlocks at h
  set final := items.enum.foldl (scanStep env items) ⟨none, [], []⟩ with hfinal
  have main :
      ∀ (l : List (Nat × List AssemblyItem)) (r0 : BlockMap),
        mapLookup
            (l.foldl
              (fun r tb =>
                match mapLookup final.numPushTags tb.1 with
                | some n => mapSet r tb.1 ⟨tb.2, (n : Int)⟩
                | none => r)
              r0) tag = some b →
        (∃ tb ∈ l, tb.1 = tag ∧ b.items = tb.2 ∧
          ∃ n, mapLookup final.numPushTags tag = some n ∧ b.pushTagCount = (n : Int)) ∨
          mapLookup r0 tag = some b := by
    intro l
    induction l with
    | nil => intro r0 hl; exact Or.inr hl
    | cons tb rest ih =>
      intro r0 hl
      simp only [List.foldl] at hl
      rcases ih _ hl with hin | hr0
      · rcases hin with ⟨tb1, htb1, hprop⟩
        exact Or.inl ⟨tb1, List.mem_cons_of_mem _ htb1, hprop⟩
      · cases hc : mapLookup final.numPushTags tb.1 with
        | none =>
          rw [hc] at hr0
          exact Or.inr hr0
        | some n =>
          rw [hc] at hr0
          rw [mapLookup_mapSet] at hr0
          by_cases ht : tb.1 = tag
          · rw [if_pos ht] at hr0
            have hb : b = ⟨tb.2, (n : Int)⟩ := by
              cases hr0.symm
              rfl
            refine Or.inl ⟨tb, List.mem_cons_self _ _, ht, ?_, n, ht ▸ hc, ?_⟩
            · rw [hb]
            · rw [hb]
          · rw [if_neg ht] at hr0
            exact Or.inr hr0
  rcases main final.blockItems [] h with hin | hr0
  · rcases hin with ⟨tb, htb, hteq, hbeq, n, hcn, hcount⟩
    constructor
    · rw [hbeq, ← hteq]
      exact htb
    · exact ⟨n, hcn, hcount⟩
  · exact absurd hr0 (by simp [mapLookup])

/-- Shared small environment for concrete witnesses: unit byte sizes,
identity deposit cost, unit finite gas estimate, jumps and tag markers close
straight-line blocks. -/
def envW : Env where
  breaksCSE := fun it => isJumpOp it || decide (it.type = AssemblyItemType.TagT)
  gasEstimate := fun _ => ⟨1, false⟩
  bytesRequired := fun _ => 1
  dataGas := fun n => n

/-- Shared configuration for concrete witnesses. -/
def cfgW : Config := ⟨1⟩

/-- An item named by a positive getLast? is a member of the list. -/
theorem getLast?_mem_list {α : Type} (l : List α) (e : α)
    (h : l.getLast? = some e) : e ∈ l := by
  rcases List.mem_getLast?_eq_getLast (Option.mem_def.mpr h) with ⟨hh, heq⟩
  rw [heq]
  exact List.getLast_mem hh

/-- C3: every block in the result mapping of determineInlinableBlocks is
nonempty, ends in an unconditional JUMP operation, and contains no PushTag of
the block's own tag; in particular no self-referencing block is a member. -/
theorem c3_candidate_shape (env : Env) (items : List AssemblyItem) (tag : Nat)
    (b : InlinableBlock)
    (h : mapLookup (determineInlinableBlocks env items) tag = some b) :
    b.items ≠ [] ∧ (∃ e, b.items.getLast? = some e ∧ isJumpOp e = true) ∧
      ∀ x ∈ b.items, isPushTagOf tag x = false := by
  have hmem := (determine_lookup env items tag b h).1
  have hgood := scan_blockItems_good env items items.enum ⟨none, [], []⟩
    (by intro e he; exact absurd he (by simp)) _ hmem
  exact isInlineCandidate_ok_true tag b.items hgood.1

/-- Concrete witness program: a function block for tag 5 followed by one call
site, in the shape of Scenario A of the spec. -/
def progW : List AssemblyItem :=
  [AssemblyItem.Tag 5,
   AssemblyItem.Operation (Instr.OtherInstr 1) JumpType.Ordinary,
   AssemblyItem.Operation Instr.JUMP JumpType.OutOfFunction,
   AssemblyItem.PushTag 5,
   AssemblyItem.Operation Instr.JUMP JumpType.IntoFunction]

/-- The block determineInlinableBlocks records for tag 5 of progW. -/
def blockW : InlinableBlock :=
  ⟨[AssemblyItem.Operation (Instr.OtherInstr 1) JumpType.Ordinary,
    AssemblyItem.Operation Instr.JUMP JumpType.OutOfFunction], 1⟩

/-- C3 witness: the candidate shape evaluated on the concrete program. -/
theorem c3_witness :
    blockW.items ≠ [] ∧
      (∃ e, blockW.items.getLast? = some e ∧ isJumpOp e = true) ∧
      ∀ x ∈ blockW.items, isPushTagOf 5 x = false :=
  c3_candidate_shape envW progW 5 blockW (by decide)

/-- The reference count of every entry of the result mapping is the PushTag
occurrence count of its tag, which is positive. -/
theorem determine_count_eq (env : Env) (items : List AssemblyItem) (tag : Nat)
    (b : InlinableBlock)
    (h : mapLookup (determineInlinableBlocks env items) tag = some b) :
    b.pushTagCount = (countPushTag items tag : Int) ∧
      1 ≤ countPushTag items tag := by
  rcases (determine_lookup env items tag b h).2 with ⟨n, hcn, hcount⟩
  rw [determine_counts_lookup] at hcn
  by_cases hz : countPushTag items tag = 0
  · rw [if_pos hz] at hcn
    exact absurd hcn (by simp)
  · rw [if_neg hz] at hcn
    injection hcn with hn
    rw [← hn] at hcount
    exact ⟨hcount, Nat.one_le_iff_ne_zero.mpr hz⟩

/-- C4: the reference count attached to every entry of the result mapping is
exactly the number of PushTag occurrences of its tag in the whole program, and
every entry's tag was pushed at least once. -/
theorem c4_reference_count (env : Env) (items : List AssemblyItem) (tag : Nat)
    (b : InlinableBlock)
    (h : mapLookup (determineInlinableBlocks env items) tag = some b) :
    b.pushTagCount = (countPushTag items tag : Int) ∧
      1 ≤ countPushTag items tag :=
  determine_count_eq env items tag b h

/-- C4 witness: the reference count of the concrete program's block equals
its single PushTag occurrence. -/
theorem c4_witness :
    blockW.pushTagCount = (countPushTag progW 5 : Int) ∧
      1 ≤ countPushTag progW 5 :=
  c4_reference_count envW progW 5 blockW (by decide)

/-- C7: a program without unconditional-jump operations yields an empty
mapping and is returned unchanged by optimise. -/
theorem c7_no_jumps (env : Env) (cfg : Config) (items : List AssemblyItem)
    (hnj : ∀ x ∈ items, isJumpOp x = false) :
    determineInlinableBlocks env items = [] ∧ optimise env cfg items = items := by
  have hempty : (items.enum.foldl (scanStep env items) ⟨none, [], []⟩).blockItems = [] := by
    cases hb : (items.enum.foldl (scanStep env items) ⟨none, [], []⟩).blockItems with
    | nil => rfl
    | cons e rest =>
      have hgood := scan_blockItems_good env items items.enum ⟨none, [], []⟩
        (by intro e1 he1; exact absurd he1 (by simp)) e
        (by rw [hb]; exact List.mem_cons_self _ _)
      rcases isInlineCandidate_ok_true e.1 e.2 hgood.1 with ⟨_, ⟨last, hlast, hjump⟩, _⟩
      have hmem : last ∈ items := hgood.2 last (getLast?_mem_list _ _ hlast)
      rw [hnj last hmem] at hjump
      exact absurd hjump (by simp)
  have hdet : determineInlinableBlocks env items = [] := by
    simp only [determineInlinableBlocks]
    rw [hempty]
    rfl
  refine ⟨hdet, ?_⟩
  simp only [optimise]
  rw [hdet]
  simp

/-- C7 witness: a two-item jump-free program is left unchanged. -/
theorem c7_witness :
    determineInlinableBlocks envW [AssemblyItem.Tag 1, AssemblyItem.PushTag 1] = [] ∧
      optimise envW cfgW [AssemblyItem.Tag 1, AssemblyItem.PushTag 1] =
        [AssemblyItem.Tag 1, AssemblyItem.PushTag 1] :=
  c7_no_jumps envW cfgW [AssemblyItem.Tag 1, AssemblyItem.PushTag 1] (by decide)

/-!
Basic facts about the cost primitives.
-/

/-- Accumulating byte sizes without truncation is monotone in the accumulator. -/
theorem codeSizeAux_le (env : Env) :
    ∀ (l : List AssemblyItem) (acc : Nat),
      acc ≤ l.foldl (fun a it => a + env.bytesRequired it) acc := by
  intro l
  induction l with
  | nil => intro acc; exact Nat.le_refl acc
  | cons it rest ih =>
    intro acc
    exact Nat.le_trans (Nat.le_add_right acc (env.bytesRequired it)) (ih (acc + env.bytesRequired it))

/-- When the untruncated byte total stays below 2 ^ 32, the unsigned-int
accumulation of codeSize never truncates. -/
theorem codeSize_foldl_eq (env : Env) :
    ∀ (l : List AssemblyItem) (acc : Nat),
      l.foldl (fun a it => a + env.bytesRequired it) acc < 2 ^ 32 →
      l.foldl (fun a it => (a + env.bytesRequired it) % 2 ^ 32) acc =
        l.foldl (fun a it => a + env.bytesRequired it) acc := by
  intro l
  induction l with
  | nil => intro acc _; rfl
  | cons it rest ih =>
    intro acc h
    have hstep : acc + env.bytesRequired it < 2 ^ 32 :=
      Nat.lt_of_le_of_lt (codeSizeAux_le env rest (acc + env.bytesRequired it)) h
    simp only [List.foldl]
    rw [Nat.mod_eq_of_lt hstep]
    exact ih (acc + env.bytesRequired it) h

/-- codeSize agrees with the exact code size when the latter fits in 32 bits. -/
theorem codeSize_eq_exact (env : Env) (l : List AssemblyItem)
    (h : codeSizeExact env l < 2 ^ 32) : codeSize env l = codeSizeExact env l :=
  codeSize_foldl_eq env l 0 h

/-- executionCost agrees with the exact execution cost when the latter is
below 2 ^ 256. -/
theorem executionCost_eq_exact (env : Env) (l : List AssemblyItem)
    (h : executionCostExact env l < 2 ^ 256) :
    executionCost env l = executionCostExact env l := by
  unfold executionCostExact at h
  unfold executionCost executionCostExact
  by_cases hinf : (env.gasEstimate l).isInfinite
  · simp [hinf]
  · simp only [hinf, Bool.false_eq_true, if_false] at h ⊢
    exact Nat.mod_eq_of_lt h

/-- C2, counterexample environment: realistic per-item byte sizes (three bytes
for a tag push with two-byte addresses, one byte for plain operations and tag
markers, a sixteen-byte push as block body), a linear 200-gas-per-byte deposit
cost, and a finite gas estimate. -/
def envCE : Env where
  breaksCSE := fun _ => true
  gasEstimate := fun _ => ⟨0, false⟩
  bytesRequired := fun it =>
    match it with
    | AssemblyItem.Operation _ _ => 1
    | AssemblyItem.Tag _ => 1
    | AssemblyItem.PushTag _ => 3
    | AssemblyItem.OtherItem _ => 16
  dataGas := fun n => 200 * n

/-- C2, counterexample configuration: zero expected runs. -/
def cfgCE : Config := ⟨0⟩

/-- C2, counterexample block: a sixteen-byte body item and the return jump. -/
def blockCE : List AssemblyItem :=
  [AssemblyItem.OtherItem 0, AssemblyItem.Operation Instr.JUMP JumpType.OutOfFunction]

/-- C2 counterexample: at reference count 2 ^ 60 the uint64 product
referenceCount * bodySize wraps to zero, so the code inlines although the
exact arbitrary-precision decision rule of the claim rejects: the claimed
equivalence with exact-width arithmetic is false. -/
theorem c2_counterexample :
    shouldInlineFullFunctionBody envCE cfgCE blockCE (2 ^ 60) = true ∧
    shouldInlineSpecExact envCE cfgCE blockCE (2 ^ 60) = false := by
  constructor <;> decide

/-- C2 (amended): shouldInlineFullFunctionBody decides exactly the spec
formula expectedRuns * uninlinedExecCost + uninlinedDeposit > inlinedDeposit
with bodySize the code size of the block without its final jump, provided the
intermediate quantities fit the machine widths the source computes them in:
code sizes below 2 ^ 32, uint64 byte-count arithmetic below 2 ^ 64, and u256
execution-cost arithmetic below 2 ^ 256. -/
theorem c2_decision_rule (env : Env) (cfg : Config)
    (block : List AssemblyItem) (count : Nat)
    (h1 : codeSizeExact env uninlinedCallSitePattern < 2 ^ 32)
    (h2 : codeSizeExact env uninlinedFunctionPattern < 2 ^ 32)
    (h3 : codeSizeExact env block.dropLast < 2 ^ 32)
    (h4 : executionCostExact env uninlinedCallSitePattern +
      executionCostExact env uninlinedFunctionPattern < 2 ^ 256)
    (h5 : count * (executionCostExact env uninlinedCallSitePattern +
      executionCostExact env uninlinedFunctionPattern) < 2 ^ 256)
    (h6 : count * codeSizeExact env uninlinedCallSitePattern +
      codeSizeExact env uninlinedFunctionPattern +
      codeSizeExact env block.dropLast < 2 ^ 64)
    (h7 : count * codeSizeExact env block.dropLast < 2 ^ 64) :
    shouldInlineFullFunctionBody env cfg block count =
      shouldInlineSpecExact env cfg block count := by
  have e1 : executionCost env uninlinedCallSitePattern =
      executionCostExact env uninlinedCallSitePattern :=
    executionCost_eq_exact env _ (Nat.lt_of_le_of_lt (Nat.le_add_right _ _) h4)
  have e2 : executionCost env uninlinedFunctionPattern =
      executionCostExact env uninlinedFunctionPattern :=
    executionCost_eq_exact env _
      (Nat.lt_of_le_of_lt (Nat.le_add_left _ _) h4)
  simp only [shouldInlineFullFunctionBody, shouldInlineSpecExact]
  rw [codeSize_eq_exact env _ h1, codeSize_eq_exact env _ h2,
    codeSize_eq_exact env _ h3, e1, e2,
    Nat.mod_eq_of_lt h4, Nat.mod_eq_of_lt h5,
    Nat.mod_eq_of_lt h6, Nat.mod_eq_of_lt h7]

/-- C2 witness: a concrete small instance in which the no-overflow bounds hold
and the decision agrees with the exact rule. -/
theorem c2_decision_rule_witness :
    shouldInlineFullFunctionBody envCE ⟨1⟩ blockCE 1 =
      shouldInlineSpecExact envCE ⟨1⟩ blockCE 1 :=
  c2_decision_rule envCE ⟨1⟩ blockCE 1 (by decide) (by decide) (by decide)
    (by decide) (by decide) (by decide) (by decide)

/-!
C6 and C9: shouldInline and the assertion-class failures.
-/

/-- C6: under the precondition that the call-site item and the block
terminator are unconditional jumps, shouldInline yields the Ordinary
classification exactly when the call-site jump is classified into-function,
the terminator out-of-function, and the full-function-body decision approves;
in every other case it yields none. -/
theorem c6_shouldInline_characterisation (env : Env) (cfg : Config)
    (jump : AssemblyItem) (blk : InlinableBlock) (e : AssemblyItem)
    (hlast : blk.items.getLast? = some e)
    (hj : isJumpOp jump = true) (he : isJumpOp e = true) :
    shouldInline env cfg jump blk =
      Except.ok
        (if jump.getJumpType = JumpType.IntoFunction ∧
            e.getJumpType = JumpType.OutOfFunction ∧
            shouldInlineFullFunctionBody env cfg blk.items blk.pushTagCount.toNat = true
         then some JumpType.Ordinary else none) := by
  unfold shouldInline
  rw [hlast]
  simp only [hj, he, Bool.and_self, Bool.not_true, Bool.false_eq_true, if_false]
  by_cases h1 : jump.getJumpType = JumpType.IntoFunction ∧
      e.getJumpType = JumpType.OutOfFunction
  · by_cases h2 : shouldInlineFullFunctionBody env cfg blk.items blk.pushTagCount.toNat = true
    · simp [h1, h2]
    · simp [h1, h2, Bool.not_eq_true _ ▸ h2]
  · have h1a : ¬(jump.getJumpType = JumpType.IntoFunction ∧
        e.getJumpType = JumpType.OutOfFunction ∧
        shouldInlineFullFunctionBody env cfg blk.items blk.pushTagCount.toNat = true) := by
      intro hc
      exact h1 ⟨hc.1, hc.2.1⟩
    simp [h1, h1a]

/-- C6 witness: concrete call-site jump and block at which the
characterisation is evaluated. -/
theorem c6_witness :
    shouldInline envW cfgW
        (AssemblyItem.Operation Instr.JUMP JumpType.IntoFunction)
        ⟨[AssemblyItem.Operation Instr.JUMP JumpType.OutOfFunction], 1⟩ =
      Except.ok
        (if (AssemblyItem.Operation Instr.JUMP JumpType.IntoFunction).getJumpType =
              JumpType.IntoFunction ∧
            (AssemblyItem.Operation Instr.JUMP JumpType.OutOfFunction).getJumpType =
              JumpType.OutOfFunction ∧
            shouldInlineFullFunctionBody envW cfgW
              [AssemblyItem.Operation Instr.JUMP JumpType.OutOfFunction]
              (Int.toNat 1) = true
         then some JumpType.Ordinary else none) :=
  c6_shouldInline_characterisation envW cfgW
    (AssemblyItem.Operation Instr.JUMP JumpType.IntoFunction)
    ⟨[AssemblyItem.Operation Instr.JUMP JumpType.OutOfFunction], 1⟩
    (AssemblyItem.Operation Instr.JUMP JumpType.OutOfFunction)
    (by decide) (by decide) (by decide)

/-- C9: the two assertion-class failures: the candidacy check on an empty
block, and the inline-eligibility check when the call-site item or the block
terminator is not an unconditional jump, both abort with the internal
OptimizerException rather than returning a normal result. -/
theorem c9_assertion_failures :
    (∀ tag : Nat,
      isInlineCandidate tag [] = Except.error InlinerError.optimizerException) ∧
    (∀ (env : Env) (cfg : Config) (jump : AssemblyItem) (blk : InlinableBlock)
        (e : AssemblyItem), blk.items.getLast? = some e →
      (isJumpOp jump = false ∨ isJumpOp e = false) →
      shouldInline env cfg jump blk = Except.error InlinerError.optimizerException) := by
  constructor
  · intro tag; rfl
  · intro env cfg jump blk e hlast hor
    unfold shouldInline
    rw [hlast]
    rcases hor with h | h <;> simp [h]

/-- C9 witness: the empty-block candidacy failure and a concrete
inline-eligibility failure where the call-site item is a tag marker. -/
theorem c9_witness :
    isInlineCandidate 0 [] = Except.error InlinerError.optimizerException ∧
    shouldInline envW cfgW (AssemblyItem.Tag 0)
        ⟨[AssemblyItem.Operation Instr.JUMP JumpType.Ordinary], 1⟩ =
      Except.error InlinerError.optimizerException :=
  ⟨c9_assertion_failures.1 0,
   c9_assertion_failures.2 envW cfgW (AssemblyItem.Tag 0)
     ⟨[AssemblyItem.Operation Instr.JUMP JumpType.Ordinary], 1⟩
     (AssemblyItem.Operation Instr.JUMP JumpType.Ordinary)
     (by decide) (Or.inl (by decide))⟩

/-!
C8: monotonicity of the decision in the expected number of runs.
-/

/-- C8: with the block, reference count and cost environment fixed, enlarging
the expected number of runs never turns a positive inlining decision
negative. -/
theorem c8_monotone_runs (env : Env) (block : List AssemblyItem)
    (count : Nat) (r1 r2 : Nat) (hle : r1 ≤ r2)
    (h : shouldInlineFullFunctionBody env ⟨r1⟩ block count = true) :
    shouldInlineFullFunctionBody env ⟨r2⟩ block count = true := by
  simp only [shouldInlineFullFunctionBody, decide_eq_true_eq] at h ⊢
  exact Nat.lt_of_lt_of_le h (Nat.add_le_add_right (Nat.mul_le_mul_right _ hle) _)

/-- C8 witness: a decision positive at zero runs stays positive at one run. -/
theorem c8_witness :
    shouldInlineFullFunctionBody envW ⟨1⟩
      [AssemblyItem.Operation Instr.JUMP JumpType.OutOfFunction] 1 = true :=
  c8_monotone_runs envW
    [AssemblyItem.Operation Instr.JUMP JumpType.OutOfFunction] 1 0 1
    (by decide) (by decide)

/-!
The rewrite pass: decision unpacking and reference-count bookkeeping.
-/

/-- A positive shouldInline result always carries the Ordinary
classification. -/
theorem shouldInline_ok_some (env : Env) (cfg : Config) (j : AssemblyItem)
    (b : InlinableBlock) (jt : JumpType)
    (h : shouldInline env cfg j b = Except.ok (some jt)) :
    jt = JumpType.Ordinary := by
  unfold shouldInline at h
  cases hq : b.items.getLast? with
  | none => rw [hq] at h; exact absurd h (by simp)
  | some e =>
    rw [hq] at h
    repeat' split at h
    all_goals simp_all

/-- Unpacking a positive rewriting decision: the current item is a PushTag,
the next one a JUMP operation, the pushed tag has the looked-up live
candidate, and the approved classification is Ordinary. -/
theorem inlineDecision_some (env : Env) (cfg : Config) (m : BlockMap)
    (item nextItem : AssemblyItem) (blk : InlinableBlock) (jt : JumpType)
    (h : inlineDecision env cfg m item nextItem = some (blk, jt)) :
    ∃ tag, item = AssemblyItem.PushTag tag ∧ isJumpOp nextItem = true ∧
      mapLookup m tag = some blk ∧ jt = JumpType.Ordinary ∧ item.data = tag := by
  unfold inlineDecision at h
  split at h
  next hcond =>
    split at h
    next blk0 hl =>
      split at h
      next jt0 hsi =>
        injection h with h1
        have hblk : blk0 = blk := congrArg Prod.fst h1
        have hjt : jt0 = jt := congrArg Prod.snd h1
        rcases hcond with ⟨htype, hjump⟩
        cases item with
        | Operation i j1 => exact absurd htype (by simp [AssemblyItem.type])
        | Tag t => exact absurd htype (by simp [AssemblyItem.type])
        | OtherItem k => exact absurd htype (by simp [AssemblyItem.type])
        | PushTag tag =>
          refine ⟨tag, rfl, hjump, ?_, ?_, rfl⟩
          · rw [show (AssemblyItem.PushTag tag).data = tag from rfl] at hl
            rw [hl, hblk]
          · rw [← hjt]
            exact shouldInline_ok_some env cfg nextItem blk0 jt0 (hblk ▸ hsi)
      next => exact absurd h (by simp)
    next => exact absurd h (by simp)
  next => exact absurd h (by simp)

/-- A JUMP operation is never a PushTag. -/
theorem isJumpOp_not_pushTag (y : AssemblyItem) (t : Nat)
    (h : isJumpOp y = true) : isPushTagOf t y = false := by
  cases y <;> simp [isPushTagOf, isJumpOp] at h ⊢

/-- The nested-PushTag increment fold of the rewriter, pointwise: each entry
keeps its items and gains the number of PushTag occurrences of its key inside
the copied body. -/
theorem incFold_lookup :
    ∀ (l : List AssemblyItem) (m : BlockMap) (t : Nat),
      mapLookup
          (l.foldl
            (fun m1 it =>
              if it.type = AssemblyItemType.PushTagT then
                mapUpdate m1 it.data (fun b => ⟨b.items, b.pushTagCount + 1⟩)
              else m1)
            m) t =
        Option.map (fun b => ⟨b.items, b.pushTagCount + (countPushTag l t : Int)⟩)
          (mapLookup m t) := by
  intro l
  induction l with
  | nil =>
    intro m t
    cases hm : mapLookup m t with
    | none => simp [hm]
    | some b => simp [hm, countPushTag]
  | cons it rest ih =>
    intro m t
    simp only [List.foldl]
    rw [ih]
    by_cases hp : it.type = AssemblyItemType.PushTagT
    · rw [if_pos hp, mapLookup_mapUpdate]
      by_cases hd : it.data = t
      · have hpt : isPushTagOf t it = true := (isPushTagOf_iff t it).mpr ⟨hp, hd⟩
        rw [if_pos hd, hd]
        cases hm : mapLookup m t with
        | none => simp
        | some b =>
          simp only [Option.map_some', countPushTag, hpt, if_true,
            Option.some.injEq, InlinableBlock.mk.injEq]
          refine ⟨trivial, ?_⟩
          push_cast
          omega
      · have hpt : isPushTagOf t it = false := by
          cases hq : isPushTagOf t it
          · rfl
          · exact absurd ((isPushTagOf_iff t it).mp hq).2 hd
        rw [if_neg hd]
        simp [countPushTag, hpt]
    · have hpt : isPushTagOf t it = false := by
        cases hq : isPushTagOf t it
        · rfl
        · exact absurd ((isPushTagOf_iff t it).mp hq).1 hp
      rw [if_neg hp]
      simp [countPushTag, hpt]

/-- The full bookkeeping of one inlining step, pointwise: one decrement at the
inlined tag plus the nested-PushTag increments; items never change. -/
theorem mapLookup_inlineMapUpdate (m : BlockMap) (tag : Nat)
    (blk : InlinableBlock) (t : Nat) :
    mapLookup (inlineMapUpdate m tag blk) t =
      Option.map
        (fun b => ⟨b.items,
          b.pushTagCount - (if tag = t then 1 else 0) + (countPushTag blk.items t : Int)⟩)
        (mapLookup m t) := by
  unfold inlineMapUpdate
  rw [incFold_lookup, mapLookup_mapUpdate]
  by_cases ht : tag = t
  · rw [if_pos ht, if_pos ht, ht]
    cases hm : mapLookup m t with
    | none => simp
    | some b => simp
  · rw [if_neg ht, if_neg ht]
    cases hm : mapLookup m t with
    | none => simp
    | some b => simp

/-- The items component of every entry is untouched by inlining bookkeeping. -/
theorem inlineMapUpdate_items (m : BlockMap) (tag : Nat) (blk : InlinableBlock)
    (t : Nat) :
    Option.map InlinableBlock.items (mapLookup (inlineMapUpdate m tag blk) t) =
      Option.map InlinableBlock.items (mapLookup m t) := by
  rw [mapLookup_inlineMapUpdate]
  cases hm : mapLookup m t <;> simp

/-!
C5: reference counts never go negative during the rewrite pass.
-/

/-- The pass invariant: every live candidate's reference count dominates the
number of PushTag occurrences of its tag in the not-yet-processed suffix. -/
def countsGE (m : BlockMap) (rem : List AssemblyItem) : Prop :=
  ∀ t b, mapLookup m t = some b → (countPushTag rem t : Int) ≤ b.pushTagCount

theorem countsGE_tail (m : BlockMap) (x : AssemblyItem)
    (rem : List AssemblyItem) (h : countsGE m (x :: rem)) : countsGE m rem := by
  intro t b hb
  refine le_trans ?_ (h t b hb)
  have : countPushTag rem t ≤ countPushTag (x :: rem) t := by
    simp only [countPushTag]
    omega
  exact_mod_cast this

theorem countsGE_nonneg (m : BlockMap) (rem : List AssemblyItem)
    (h : countsGE m rem) : ∀ t b, mapLookup m t = some b → 0 ≤ b.pushTagCount := by
  intro t b hb
  refine le_trans ?_ (h t b hb)
  exact_mod_cast Nat.zero_le _

/-- The invariant survives one inlining step. -/
theorem countsGE_inline_step (env : Env) (cfg : Config) (m : BlockMap)
    (x y : AssemblyItem) (rest : List AssemblyItem) (blk : InlinableBlock)
    (jt : JumpType)
    (hdec : inlineDecision env cfg m x y = some (blk, jt))
    (hInv : countsGE m (x :: y :: rest)) :
    countsGE (inlineMapUpdate m x.data blk) rest := by
  rcases inlineDecision_some env cfg m x y blk jt hdec with
    ⟨tag, hx, hjump, hlook, hjt, hdata⟩
  intro t b1 hb1
  rw [mapLookup_inlineMapUpdate] at hb1
  cases hm : mapLookup m t with
  | none => rw [hm] at hb1; exact absurd hb1 (by simp)
  | some b =>
    rw [hm] at hb1
    simp only [Option.map_some'] at hb1
    injection hb1 with hb1e
    have hInv1 := hInv t b hm
    have hcy : isPushTagOf t y = false := isJumpOp_not_pushTag y t hjump
    rw [← hb1e]
    simp only [hdata]
    have hnn : (0 : Int) ≤ (countPushTag blk.items t : Int) := by
      exact_mod_cast Nat.zero_le _
    by_cases htag : tag = t
    · have hx1 : isPushTagOf t x = true := by
        rw [hx]
        simp [isPushTagOf, htag]
      simp only [countPushTag, hx1, hcy] at hInv1
      rw [if_pos htag]
      simp only [Bool.false_eq_true, if_false, if_true] at hInv1
      push_cast at hInv1 ⊢
      omega
    · have hx0 : isPushTagOf t x = false := by
        rw [hx]
        simp [isPushTagOf, htag]
      simp only [countPushTag, hx0, hcy] at hInv1
      rw [if_neg htag]
      simp only [Bool.false_eq_true, if_false] at hInv1
      push_cast at hInv1 ⊢
      omega

/-- Along the whole rewrite pass from a map satisfying the invariant, every
reachable map has only nonnegative reference counts. -/
theorem trace_nonneg (env : Env) (cfg : Config) (n : Nat) :
    ∀ (items : List AssemblyItem), items.length ≤ n →
      ∀ (m : BlockMap), countsGE m items →
        ∀ m1 ∈ optimiseTrace env cfg m items,
          ∀ t b, mapLookup m1 t = some b → 0 ≤ b.pushTagCount := by
  induction n with
  | zero =>
    intro items hlen m hInv m1 hm1 t b hb
    have : items = [] := List.eq_nil_of_length_eq_zero (Nat.le_zero.mp hlen)
    subst this
    simp only [optimiseTrace, List.mem_singleton] at hm1
    subst hm1
    exact countsGE_nonneg _ _ hInv t b hb
  | succ n ih =>
    intro items hlen m hInv m1 hm1 t b hb
    cases items with
    | nil =>
      simp only [optimiseTrace, List.mem_singleton] at hm1
      subst hm1
      exact countsGE_nonneg _ _ hInv t b hb
    | cons x rest0 =>
      cases rest0 with
      | nil =>
        simp only [optimiseTrace, List.mem_singleton] at hm1
        subst hm1
        exact countsGE_nonneg _ _ hInv t b hb
      | cons y rest =>
        simp only [optimiseTrace] at hm1
        cases hdec : inlineDecision env cfg m x y with
        | some p =>
          rw [hdec] at hm1
          rcases List.mem_cons.mp hm1 with h1 | h1
          · subst h1
            exact countsGE_nonneg _ _ hInv t b hb
          · rcases p with ⟨blk, jt⟩
            have hInv1 := countsGE_inline_step env cfg m x y rest blk jt hdec hInv
            have hlen1 : rest.length ≤ n := by
              simp only [List.length_cons] at hlen
              omega
            exact ih rest hlen1 (inlineMapUpdate m x.data blk) hInv1 m1 h1 t b hb
        | none =>
          rw [hdec] at hm1
          rcases List.mem_cons.mp hm1 with h1 | h1
          · subst h1
            exact countsGE_nonneg _ _ hInv t b hb
          · have hInv1 := countsGE_tail m x (y :: rest) hInv
            have hlen1 : (y :: rest).length ≤ n := by
              simp only [List.length_cons] at hlen ⊢
              omega
            exact ih (y :: rest) hlen1 m hInv1 m1 h1 t b hb

/-- C5: over the whole left-to-right rewrite pass started from the mapping
determineInlinableBlocks produces, no reference count ever becomes negative. -/
theorem c5_counts_nonneg (env : Env) (cfg : Config) (items : List AssemblyItem)
    (m1 : BlockMap)
    (h : m1 ∈ optimiseTrace env cfg (determineInlinableBlocks env items) items)
    (t : Nat) (b : InlinableBlock) (hb : mapLookup m1 t = some b) :
    0 ≤ b.pushTagCount := by
  refine trace_nonneg env cfg items.length items (Nat.le_refl _)
    (determineInlinableBlocks env items) ?_ m1 h t b hb
  intro t1 b1 hb1
  rcases determine_count_eq env items t1 b1 hb1 with ⟨hc, _⟩
  rw [hc]

/-- C5 witness: the final map of the concrete program's pass, with the count
of tag 5 decremented to zero, is still nonnegative. -/
theorem c5_witness :
    0 ≤ (InlinableBlock.mk blockW.items 0).pushTagCount :=
  c5_counts_nonneg envW cfgW progW [(5, ⟨blockW.items, 0⟩)] (by decide) 5
    ⟨blockW.items, 0⟩ (by decide)

/-!
C1: the rewritten sequence is the original with call sites substituted.
-/

/-- One unit of the rewrite decomposition: either one preserved instruction or
one inlined two-instruction call site. -/
inductive RewriteChunk where
  | keep (item : AssemblyItem)
  | inlined (pushItem jumpItem : AssemblyItem) (body : List AssemblyItem)
      (jt : JumpType)

/-- The original instructions a chunk covers. -/
def chunkSource : RewriteChunk → List AssemblyItem
  | RewriteChunk.keep it => [it]
  | RewriteChunk.inlined p j _ _ => [p, j]

/-- The instructions a chunk emits into the rewritten sequence. -/
def chunkEmitted : RewriteChunk → List AssemblyItem
  | RewriteChunk.keep it => [it]
  | RewriteChunk.inlined _ _ body jt => setLastJumpType jt body

/-- Validity of a chunk against a block map: an inlined chunk covers a
PushTag followed by an unconditional jump and emits the looked-up candidate
body, its trailing jump forced to the Ordinary classification. -/
def chunkOk (m : BlockMap) : RewriteChunk → Prop
  | RewriteChunk.keep _ => True
  | RewriteChunk.inlined p j body jt => ∃ tag blk,
      p = AssemblyItem.PushTag tag ∧ isJumpOp j = true ∧
      jt = JumpType.Ordinary ∧ mapLookup m tag = some blk ∧ body = blk.items

theorem join_map_keep_source :
    ∀ (l : List AssemblyItem),
      ((l.map RewriteChunk.keep).map chunkSource).flatten = l := by
  intro l
  induction l with
  | nil => rfl
  | cons x rest ih =>
    simp only [List.map_cons, List.flatten_cons, chunkSource, List.singleton_append,
      List.cons.injEq]
    exact ⟨trivial, ih⟩

theorem join_map_keep_emitted :
    ∀ (l : List AssemblyItem),
      ((l.map RewriteChunk.keep).map chunkEmitted).flatten = l := by
  intro l
  induction l with
  | nil => rfl
  | cons x rest ih =>
    simp only [List.map_cons, List.flatten_cons, chunkEmitted, List.singleton_append,
      List.cons.injEq]
    exact ⟨trivial, ih⟩

/-- Chunk validity transfers between maps that agree on all items
components (the counts may differ). -/
theorem chunkOk_mono (m1 m2 : BlockMap)
    (hitems : ∀ t, Option.map InlinableBlock.items (mapLookup m2 t) =
      Option.map InlinableBlock.items (mapLookup m1 t))
    (c : RewriteChunk) (h : chunkOk m2 c) : chunkOk m1 c := by
  cases c with
  | keep it => trivial
  | inlined p j body jt =>
    rcases h with ⟨tag, blk, hp, hj, hjt, hlook, hbody⟩
    have hti := hitems tag
    rw [hlook] at hti
    cases hl1 : mapLookup m1 tag with
    | none => rw [hl1] at hti; exact absurd hti (by simp)
    | some b0 =>
      rw [hl1] at hti
      simp only [Option.map_some'] at hti
      injection hti with hi
      exact ⟨tag, b0, hp, hj, hjt, hl1, hbody.trans hi⟩

/-- The rewrite loop decomposes its input into chunks: sources concatenate to
the input, emissions concatenate to the output, and every inlined chunk is a
valid call-site substitution against the entry map. -/
theorem optimiseGo_chunks (env : Env) (cfg : Config) (n : Nat) :
    ∀ (items : List AssemblyItem), items.length ≤ n → ∀ (m : BlockMap),
      ∃ chunks : List RewriteChunk,
        items = (chunks.map chunkSource).flatten ∧
        (optimiseGo env cfg m items).1 = (chunks.map chunkEmitted).flatten ∧
        ∀ c ∈ chunks, chunkOk m c := by
  induction n with
  | zero =>
    intro items hlen m
    have : items = [] := List.eq_nil_of_length_eq_zero (Nat.le_zero.mp hlen)
    subst this
    exact ⟨[], by simp, by simp [optimiseGo], by simp⟩
  | succ n ih =>
    intro items hlen m
    cases items with
    | nil => exact ⟨[], by simp, by simp [optimiseGo], by simp⟩
    | cons x rest0 =>
      cases rest0 with
      | nil =>
        refine ⟨[RewriteChunk.keep x], by simp [chunkSource], ?_, by simp [chunkOk]⟩
        simp [optimiseGo, chunkEmitted]
      | cons y rest =>
        cases hdec : inlineDecision env cfg m x y with
        | none =>
          have hlen1 : (y :: rest).length ≤ n := by
            simp only [List.length_cons] at hlen ⊢
            omega
          rcases ih (y :: rest) hlen1 m with ⟨chunks, hsrc, hemit, hok⟩
          refine ⟨RewriteChunk.keep x :: chunks, ?_, ?_, ?_⟩
          · simp only [List.map_cons, List.flatten_cons, chunkSource,
              List.singleton_append]
            rw [← hsrc]
          · simp only [optimiseGo, hdec]
            simp only [List.map_cons, List.flatten_cons, chunkEmitted,
              List.singleton_append]
            rw [← hemit]
          · intro c hc
            rcases List.mem_cons.mp hc with h1 | h1
            · subst h1; trivial
            · exact hok c h1
        | some p =>
          rcases p with ⟨blk, jt⟩
          have hlen1 : rest.length ≤ n := by
            simp only [List.length_cons] at hlen
            omega
          rcases ih rest hlen1 (inlineMapUpdate m x.data blk) with
            ⟨chunks, hsrc, hemit, hok⟩
          refine ⟨RewriteChunk.inlined x y blk.items jt :: chunks, ?_, ?_, ?_⟩
          · simp only [List.map_cons, List.flatten_cons, chunkSource,
              List.cons_append, List.nil_append]
            rw [← hsrc]
          · simp only [optimiseGo, hdec]
            simp only [List.map_cons, List.flatten_cons, chunkEmitted]
            rw [← hemit]
          · intro c hc
            rcases List.mem_cons.mp hc with h1 | h1
            · subst h1
              rcases inlineDecision_some env cfg m x y blk jt hdec with
                ⟨tag, hx, hjump, hlook, hjt, hdata⟩
              exact ⟨tag, blk, hx, hjump, hjt, hlook, rfl⟩
            · exact chunkOk_mono m (inlineMapUpdate m x.data blk)
                (inlineMapUpdate_items m x.data blk) c (hok c h1)

/-- C1: optimise decomposes the program into single preserved instructions,
in original relative order, and inlined call sites, each a PushTag directly
followed by an unconditional jump replaced wholesale by a copy of the target
block of the initial mapping with its final jump forced to Ordinary. -/
theorem c1_rewrite_decomposition (env : Env) (cfg : Config)
    (items : List AssemblyItem) :
    ∃ chunks : List RewriteChunk,
      items = (chunks.map chunkSource).flatten ∧
      optimise env cfg items = (chunks.map chunkEmitted).flatten ∧
      ∀ c ∈ chunks, chunkOk (determineInlinableBlocks env items) c := by
  by_cases hempty : determineInlinableBlocks env items = []
  · refine ⟨items.map RewriteChunk.keep, (join_map_keep_source items).symm, ?_, ?_⟩
    · have : optimise env cfg items = items := by
        simp only [optimise]
        rw [hempty]
        simp
      rw [this, join_map_keep_emitted]
    · intro c hc
      rcases List.mem_map.mp hc with ⟨it, _, hkeep⟩
      rw [← hkeep]
      trivial
  · rcases optimiseGo_chunks env cfg items.length items (Nat.le_refl _)
      (determineInlinableBlocks env items) with ⟨chunks, hsrc, hemit, hok⟩
    refine ⟨chunks, hsrc, ?_, hok⟩
    simp only [optimise]
    rw [if_neg hempty]
    exact hemit

/-!
C10: inlined copies are emitted verbatim and never re-examined in the pass.
-/

/-- Reclassifying the final item leaves every earlier position unchanged. -/
theorem setLastJumpType_getElem? :
    ∀ (jt : JumpType) (l : List AssemblyItem) (i : Nat), i + 1 < l.length →
      (setLastJumpType jt l)[i]? = l[i]? := by
  intro jt l
  induction l with
  | nil => intro i h; exact absurd h (by simp)
  | cons x rest ih =>
    cases rest with
    | nil =>
      intro i h
      exact absurd h (by simp)
    | cons y rest2 =>
      intro i h
      cases i with
      | zero => simp [setLastJumpType]
      | succ i2 =>
        simp only [setLastJumpType, List.getElem?_cons_succ]
        refine ih i2 ?_
        simp only [List.length_cons] at h ⊢
        omega

/-- C10: at an approved call site the rewriter emits the candidate body in
one piece, unchanged at every position except the final jump classification,
and the pass resumes after the two call-site instructions with a map that
differs from the previous one only in reference counts, so the copy is never
itself re-examined as a call site within the pass. -/
theorem c10_copy_verbatim (env : Env) (cfg : Config) (m : BlockMap)
    (tag : Nat) (blk : InlinableBlock) (nextItem : AssemblyItem)
    (rest : List AssemblyItem) (jt : JumpType)
    (hlook : mapLookup m tag = some blk)
    (hjump : isJumpOp nextItem = true)
    (hinl : shouldInline env cfg nextItem blk = Except.ok (some jt)) :
    (optimiseGo env cfg m (AssemblyItem.PushTag tag :: nextItem :: rest)).1 =
        setLastJumpType jt blk.items ++
          (optimiseGo env cfg (inlineMapUpdate m tag blk) rest).1 ∧
      (∀ t, Option.map InlinableBlock.items
          (mapLookup (inlineMapUpdate m tag blk) t) =
        Option.map InlinableBlock.items (mapLookup m t)) ∧
      (∀ i, i + 1 < blk.items.length →
        (setLastJumpType jt blk.items)[i]? = blk.items[i]?) := by
  have hdec : inlineDecision env cfg m (AssemblyItem.PushTag tag) nextItem =
      some (blk, jt) := by
    unfold inlineDecision
    simp [AssemblyItem.type, AssemblyItem.data, hjump, hlook, hinl]
  refine ⟨?_, ?_, ?_⟩
  · simp only [optimiseGo, hdec]
    rfl
  · intro t
    exact inlineMapUpdate_items m tag blk t
  · intro i hi
    exact setLastJumpType_getElem? jt blk.items i hi

/-- C10 witness: the concrete one-call-site program map, where the copied
block is emitted verbatim ahead of the rewritten remainder. -/
theorem c10_witness :
    (optimiseGo envW cfgW [(5, blockW)]
          (AssemblyItem.PushTag 5 ::
            AssemblyItem.Operation Instr.JUMP JumpType.IntoFunction :: [])).1 =
        setLastJumpType JumpType.Ordinary blockW.items ++
          (optimiseGo envW cfgW (inlineMapUpdate [(5, blockW)] 5 blockW) []).1 ∧
      (∀ t, Option.map InlinableBlock.items
          (mapLookup (inlineMapUpdate [(5, blockW)] 5 blockW) t) =
        Option.map InlinableBlock.items (mapLookup [(5, blockW)] t)) ∧
      (∀ i, i + 1 < blockW.items.length →
        (setLastJumpType JumpType.Ordinary blockW.items)[i]? = blockW.items[i]?) :=
  c10_copy_verbatim envW cfgW [(5, blockW)] 5 blockW
    (AssemblyItem.Operation Instr.JUMP JumpType.IntoFunction) [] JumpType.Ordinary
    (by decide) (by decide) (by rfl)

end EvmAsmInliner
